import Mathlib

/-!
Parallel Game of Life: the generation engine of `source/main.cpp`.

A shallow embedding of `main`, `run` and `start_worker`.

* C `int` values are `Int`; no value of the partition loop leaves the range
  `0 .. height`, so no wrap-around is modelled.
* `ceil((float)height / number_of_threads)` is taken over exact arithmetic.
* A counting `for` loop is a fold over the list of its index values; the
  `while (tmp > 0)` loop of `run` carries fuel, because it does not terminate
  when `step <= 0`.
* The class `game_field` is declared in `game_field.hpp`, outside `main.cpp`.
  Its cell storage is modelled from the specification; the neighbour count is a
  parameter `nb` of the worker wherever its value does not matter.
* Threads are not modelled. The jobs of one generation are processed one after
  the other, in an order chosen by a parameter `sched`.
-/

namespace GameOfLife

/-! ## The grid -/

/-- Modelled from the spec: the class `game_field` of `game_field.hpp`, a fixed
`width × height` matrix of boolean cell states. -/
structure game_field where
  width : Int
  height : Int
  cells : Int → Int → Bool

/-- Valid coordinates: `[0,width) × [0,height)`. -/
def game_field.in_range (f : game_field) (x y : Int) : Prop :=
  0 ≤ x ∧ x < f.width ∧ 0 ≤ y ∧ y < f.height

instance (f : game_field) (x y : Int) : Decidable (f.in_range x y) := by
  unfold game_field.in_range
  exact inferInstance

/-- Modelled from the spec: `game_field::get(x, y)`. The spec calls a coordinate
outside the grid an invalid access and names "off-grid cells count as dead" as one
of the two edge policies; the model reads such a cell as dead. -/
def game_field.get (f : game_field) (x y : Int) : Bool :=
  if f.in_range x y then f.cells x y else false

/-- Modelled from the spec: `game_field::set(x, y, value)`, "no side effects beyond
the mutated cell". A write outside the grid has no cell to mutate and is dropped. -/
def game_field.set (f : game_field) (x y : Int) (value : Bool) : game_field :=
  if f.in_range x y then
    { f with cells := fun a b => if a = x ∧ b = y then value else f.cells a b }
  else f

/-- One adjacent cell seen through `get`, as a summand of the neighbour count. -/
def game_field.live (f : game_field) (x y : Int) : Int :=
  if f.get x y then 1 else 0

/-- Modelled from the spec: `game_field::neighbors(x, y)`, the number of live
cells among the up to 8 adjacent cells, using the same edge policy as `get`. -/
def game_field.neighbors (f : game_field) (x y : Int) : Int :=
  f.live (x - 1) (y - 1) + f.live x (y - 1) + f.live (x + 1) (y - 1)
    + f.live (x - 1) y + f.live (x + 1) y
    + f.live (x - 1) (y + 1) + f.live x (y + 1) + f.live (x + 1) (y + 1)

/-! ## Work units and the worker -/

/-- The `struct job` of the source: an inclusive row range. The pointers `current`
and `next` are the same two grids for every job of a generation and are passed
to the worker separately. The field `stop` is `end` in the source. -/
structure job where
  start : Int
  stop : Int
  deriving DecidableEq

/-- Index values of `for (int i = lo; i < hi; i++)`. -/
def for_range (lo hi : Int) : List Int :=
  (List.range (hi - lo).toNat).map (fun (k : Nat) => lo + (k : Int))

/-- Rows visited by the worker for a job: `for (int y = start; y <= end; y++)`. -/
def job_rows (j : job) : List Int :=
  for_range j.start (j.stop + 1)

/-- Coordinates `(x, y)` visited by the worker for a job, in loop order:
rows `start .. end`, in each row `for (int x = 0; x < width; x++)`. -/
def job_cells (width : Int) (j : job) : List (Int × Int) :=
  (job_rows j).flatMap (fun y => (for_range 0 width).map (fun x => (x, y)))

/-- The body of the inner loop of `start_worker` (lines 208-219). -/
def process_cell (nb : game_field → Int → Int → Int) (field next : game_field)
    (x y : Int) : game_field :=
  let alive := field.get x y
  let neighbors := nb field x y
  if alive && decide (neighbors < 2) then next.set x y false
  else if alive && decide (neighbors > 3) then next.set x y false
  else if alive && (decide (neighbors = 2) || decide (neighbors = 3)) then next
  else if !alive && decide (neighbors = 3) then next.set x y true
  else next

/-- The two loops of `start_worker` for one job (lines 206-221). -/
def process_job (nb : game_field → Int → Int → Int) (field : game_field) (j : job)
    (next : game_field) : game_field :=
  (job_cells field.width j).foldl (fun nx c => process_cell nb field nx c.1 c.2) next

/-- The worker pool on the jobs of one generation, one job after the other. -/
def workers (nb : game_field → Int → Int → Int) (field : game_field) (js : List job)
    (next : game_field) : game_field :=
  js.foldl (fun nx j => process_job nb field j nx) next

/-- The Game of Life rule in the words of the spec: a cell is alive in the next
generation when it is alive with 2 or 3 live neighbours, or dead with exactly 3. -/
def next_alive (alive : Bool) (n : Int) : Bool :=
  (alive && (decide (n = 2) || decide (n = 3))) || (!alive && decide (n = 3))

/-- One synchronous generation, in the words of the spec: every cell of the grid
gets the value of the rule, read from the current grid. -/
def life_step (nb : game_field → Int → Int → Int) (f : game_field) : game_field :=
  { f with cells := fun x y =>
      if f.in_range x y then next_alive (f.cells x y) (nb f x y) else f.cells x y }

/-! ## The scheduler -/

/-- The local variables of the partition loop of `run` and the jobs pushed so far. -/
structure part_state where
  tmp : Int
  start_num : Int
  factor : Int
  step : Int
  job_queue : List job

/-- One pass through the body of `while (tmp > 0)` (lines 113-132). -/
def part_body (s : part_state) : part_state :=
  let step := if s.tmp ≤ s.step then s.tmp else s.step
  let factor := if s.tmp ≤ s.step then 0 else s.factor
  { tmp := s.tmp - step
    start_num := s.start_num + step
    factor := factor
    step := step
    job_queue := s.job_queue ++ [{ start := s.start_num, stop := s.start_num + step }] }

/-- The loop `while (tmp > 0)`; `none` when the fuel runs out. -/
def part_loop : Nat → part_state → Option part_state
  | 0, s => if 0 < s.tmp then none else some s
  | fuel + 1, s => if 0 < s.tmp then part_loop fuel (part_body s) else some s

/-- The state on entry to the partition loop (lines 108-110); `step` is the
variable of `run`, not reset between generations. -/
def part_entry (height step : Int) : part_state :=
  { tmp := height, start_num := 0, factor := -1, step := step, job_queue := [] }

/-- Line 85: `int step = ceil((float)height / number_of_threads)`, exact ceiling
for a positive thread count. -/
def init_step (height number_of_threads : Int) : Int :=
  (height + number_of_threads - 1) / number_of_threads

/-- Line 87: the number of worker threads started. -/
def actual_thread_number (height number_of_threads : Int) : Int :=
  if height < number_of_threads then height else number_of_threads

/-- What `run` carries from one generation to the next. -/
structure run_state where
  field : game_field
  step : Int

/-- One pass of the generation loop (lines 106-139): copy the grid, partition,
let the workers process the jobs in the order `order` puts them, swap. -/
def generation (nb : game_field → Int → Int → Int) (order : List job → List job)
    (fuel : Nat) (height : Int) (st : run_state) : Option run_state :=
  let next := st.field
  match part_loop fuel (part_entry height st.step) with
  | none => none
  | some p => some { field := workers nb st.field (order p.job_queue) next, step := p.step }

/-- The first `n` generations, generation `i` scheduled by `sched i`. -/
def run_gens (nb : game_field → Int → Int → Int) (sched : Nat → List job → List job)
    (fuel : Nat) (height : Int) : Nat → run_state → Option run_state
  | 0, st => some st
  | n + 1, st =>
    match run_gens nb sched fuel height n st with
    | none => none
    | some st1 => generation nb (sched n) fuel height st1

/-- The jobs `run` creates in generation `g` (counted from 0), in queue order. -/
def generation_jobs (nb : game_field → Int → Int → Int) (sched : Nat → List job → List job)
    (fuel : Nat) (input : game_field) (number_of_threads : Int) (g : Nat) :
    Option (List job) :=
  match run_gens nb sched fuel input.height g
      { field := input, step := init_step input.height number_of_threads } with
  | none => none
  | some st => (part_loop fuel (part_entry input.height st.step)).map (fun p => p.job_queue)

/-- The units in the words of the spec for a base size `step`: they start at rows
`0, step, 2 * step, ...`, every unit but the last has size `step`, the last one has
the remaining rows; `stop` is `start + size` as in `run`. -/
def spec_units (start_num tmp step : Int) : List job :=
  (List.range ((tmp + step - 1) / step).toNat).map
    (fun (k : Nat) =>
      { start := start_num + (k : Int) * step
        stop := min (start_num + ((k : Int) + 1) * step) (start_num + tmp) })

/-! ## The entry point -/

/-- The FIFO schedule: every generation processes its jobs in queue order. -/
def fifo : Nat → List job → List job := fun _ js => js

/-- A grid with a vertical blinker: the three cells `(cx, cy-1 .. cy+1)`. -/
def blinker_v (width height cx cy : Int) : game_field :=
  { width := width, height := height,
    cells := fun x y => decide (x = cx ∧ cy - 1 ≤ y ∧ y ≤ cy + 1) }

/-- A 2 × 2 grid with three live cells around the dead cell `(1, 1)`. -/
def tromino : game_field :=
  { width := 2, height := 2,
    cells := fun x y => decide (0 ≤ x ∧ x ≤ 1 ∧ 0 ≤ y ∧ y ≤ 1 ∧ ¬ (x = 1 ∧ y = 1)) }

/-! ## The grid and the worker: supporting lemmas -/

theorem set_width (f : game_field) (x y : Int) (v : Bool) : (f.set x y v).width = f.width := by
  unfold game_field.set; split <;> rfl

theorem set_height (f : game_field) (x y : Int) (v : Bool) :
    (f.set x y v).height = f.height := by
  unfold game_field.set; split <;> rfl

theorem set_cells (f : game_field) (x y : Int) (v : Bool) (a b : Int) :
    (f.set x y v).cells a b = if f.in_range x y ∧ a = x ∧ b = y then v else f.cells a b := by
  unfold game_field.set
  by_cases h : f.in_range x y
  · simp [h]
  · simp [h]

theorem process_cell_width (nb : game_field → Int → Int → Int) (cur nx : game_field)
    (a b : Int) : (process_cell nb cur nx a b).width = nx.width := by
  unfold process_cell
  simp only
  split_ifs <;> simp [set_width]

theorem process_cell_height (nb : game_field → Int → Int → Int) (cur nx : game_field)
    (a b : Int) : (process_cell nb cur nx a b).height = nx.height := by
  unfold process_cell
  simp only
  split_ifs <;> simp [set_height]

theorem in_range_congr (f g : game_field) (hw : g.width = f.width) (hh : g.height = f.height)
    (x y : Int) : g.in_range x y ↔ f.in_range x y := by
  unfold game_field.in_range; rw [hw, hh]

theorem process_cell_cells (nb : game_field → Int → Int → Int) (cur nx : game_field)
    (a b x y : Int) (hw : nx.width = cur.width) (hh : nx.height = cur.height)
    (hinv : nx.cells x y = cur.cells x y ∨
      nx.cells x y = next_alive (cur.cells x y) (nb cur x y)) :
    (process_cell nb cur nx a b).cells x y =
      if a = x ∧ b = y ∧ cur.in_range x y then next_alive (cur.cells x y) (nb cur x y)
      else nx.cells x y := by
  have hr : nx.in_range a b ↔ cur.in_range a b := in_range_congr cur nx hw hh a b
  by_cases hab : a = x ∧ b = y
  · obtain ⟨rfl, rfl⟩ := hab
    by_cases hin : cur.in_range a b
    · unfold process_cell game_field.get next_alive
      simp only [hin, if_true, true_and, and_self]
      unfold next_alive at hinv
      cases hc : cur.cells a b <;> simp only [hc] at hinv ⊢
      · by_cases h3 : nb cur a b = 3
        · simp [h3, set_cells, hr, hin]
        · simp [h3] at hinv ⊢
          exact hinv
      · by_cases h2 : nb cur a b < 2
        · have : ¬ nb cur a b = 2 := by omega
          have : ¬ nb cur a b = 3 := by omega
          simp [*, set_cells]
        · by_cases h3 : nb cur a b > 3
          · have : ¬ nb cur a b = 2 := by omega
            have : ¬ nb cur a b = 3 := by omega
            simp [*, set_cells]
          · have : nb cur a b = 2 ∨ nb cur a b = 3 := by omega
            rcases this with h | h
            · simp [h] at hinv ⊢
              exact hinv
            · simp [h] at hinv ⊢
              exact hinv
    · have hin2 : ¬ nx.in_range a b := fun h => hin (hr.mp h)
      unfold process_cell
      simp only [hin, and_false, if_false]
      split_ifs <;> simp [set_cells, hin2]
  · have hne : ¬ (x = a ∧ y = b) := fun h => hab ⟨h.1.symm, h.2.symm⟩
    have h1 : ¬ (a = x ∧ b = y ∧ cur.in_range x y) := fun h => hab ⟨h.1, h.2.1⟩
    unfold process_cell
    simp only [h1, if_false]
    split_ifs <;> simp [set_cells, hne]


theorem cells_foldl (nb : game_field → Int → Int → Int) (cur : game_field)
    (L : List (Int × Int)) : ∀ nx : game_field, nx.width = cur.width →
    nx.height = cur.height →
    (∀ x y, nx.cells x y = cur.cells x y ∨
      nx.cells x y = next_alive (cur.cells x y) (nb cur x y)) →
    (L.foldl (fun nx c => process_cell nb cur nx c.1 c.2) nx).width = cur.width ∧
    (L.foldl (fun nx c => process_cell nb cur nx c.1 c.2) nx).height = cur.height ∧
    ∀ x y, (L.foldl (fun nx c => process_cell nb cur nx c.1 c.2) nx).cells x y =
      if (x, y) ∈ L ∧ cur.in_range x y then next_alive (cur.cells x y) (nb cur x y)
      else nx.cells x y := by
  induction L with
  | nil => intro nx hw hh _; simp [hw, hh]
  | cons c L ih =>
    intro nx hw hh hinv
    obtain ⟨a, b⟩ := c
    simp only [List.foldl_cons]
    have hw1 : (process_cell nb cur nx a b).width = cur.width := by
      rw [process_cell_width, hw]
    have hh1 : (process_cell nb cur nx a b).height = cur.height := by
      rw [process_cell_height, hh]
    have hc1 : ∀ x y, (process_cell nb cur nx a b).cells x y =
        if a = x ∧ b = y ∧ cur.in_range x y then next_alive (cur.cells x y) (nb cur x y)
        else nx.cells x y := fun x y => process_cell_cells nb cur nx a b x y hw hh (hinv x y)
    have hinv1 : ∀ x y, (process_cell nb cur nx a b).cells x y = cur.cells x y ∨
        (process_cell nb cur nx a b).cells x y = next_alive (cur.cells x y) (nb cur x y) := by
      intro x y
      rw [hc1]
      split_ifs
      · exact Or.inr rfl
      · exact hinv x y
    obtain ⟨h1, h2, h3⟩ := ih _ hw1 hh1 hinv1
    refine ⟨h1, h2, ?_⟩
    intro x y
    rw [h3, hc1]
    by_cases hin : cur.in_range x y
    · by_cases hm : (x, y) ∈ L
      · simp [hm, hin]
      · by_cases hab : a = x ∧ b = y
        · obtain ⟨rfl, rfl⟩ := hab
          simp [hin]
        · have hne : ¬ ((x, y) ∈ (a, b) :: L ∧ cur.in_range x y) := by
            rintro ⟨h, -⟩
            rcases List.mem_cons.mp h with h | h
            · exact hab ⟨(Prod.mk.inj h).1.symm, (Prod.mk.inj h).2.symm⟩
            · exact hm h
          rw [if_neg (fun h => hm h.1), if_neg (fun h => hab ⟨h.1, h.2.1⟩), if_neg hne]
    · simp [hin]

/-- Every cell of the next grid is either still the copy or already the rule. -/
theorem process_job_cells (nb : game_field → Int → Int → Int) (cur : game_field) (j : job)
    (nx : game_field) (hw : nx.width = cur.width) (hh : nx.height = cur.height)
    (hinv : ∀ x y, nx.cells x y = cur.cells x y ∨
      nx.cells x y = next_alive (cur.cells x y) (nb cur x y)) :
    (process_job nb cur j nx).width = cur.width ∧
    (process_job nb cur j nx).height = cur.height ∧
    ∀ x y, (process_job nb cur j nx).cells x y =
      if (x, y) ∈ job_cells cur.width j ∧ cur.in_range x y then
        next_alive (cur.cells x y) (nb cur x y)
      else nx.cells x y :=
  cells_foldl nb cur (job_cells cur.width j) nx hw hh hinv

theorem workers_cells (nb : game_field → Int → Int → Int) (cur : game_field)
    (js : List job) : ∀ nx : game_field, nx.width = cur.width →
    nx.height = cur.height →
    (∀ x y, nx.cells x y = cur.cells x y ∨
      nx.cells x y = next_alive (cur.cells x y) (nb cur x y)) →
    (workers nb cur js nx).width = cur.width ∧
    (workers nb cur js nx).height = cur.height ∧
    ∀ x y, (workers nb cur js nx).cells x y =
      if (∃ j ∈ js, (x, y) ∈ job_cells cur.width j) ∧ cur.in_range x y then
        next_alive (cur.cells x y) (nb cur x y)
      else nx.cells x y := by
  induction js with
  | nil => intro nx hw hh _; simp [workers, hw, hh]
  | cons j js ih =>
    intro nx hw hh hinv
    obtain ⟨hw1, hh1, hc1⟩ := process_job_cells nb cur j nx hw hh hinv
    have hinv1 : ∀ x y, (process_job nb cur j nx).cells x y = cur.cells x y ∨
        (process_job nb cur j nx).cells x y = next_alive (cur.cells x y) (nb cur x y) := by
      intro x y
      rw [hc1]
      split_ifs
      · exact Or.inr rfl
      · exact hinv x y
    obtain ⟨h1, h2, h3⟩ := ih _ hw1 hh1 hinv1
    have hunf : workers nb cur (j :: js) nx = workers nb cur js (process_job nb cur j nx) := rfl
    rw [hunf]
    refine ⟨h1, h2, ?_⟩
    intro x y
    rw [h3, hc1]
    by_cases hin : cur.in_range x y
    · by_cases hm : ∃ j ∈ js, (x, y) ∈ job_cells cur.width j
      · have : ∃ i ∈ j :: js, (x, y) ∈ job_cells cur.width i := by
          obtain ⟨i, hi, hxy⟩ := hm
          exact ⟨i, List.mem_cons_of_mem _ hi, hxy⟩
        simp only [hm, hin, this, and_self, if_true]
      · by_cases hj : (x, y) ∈ job_cells cur.width j
        · have : ∃ i ∈ j :: js, (x, y) ∈ job_cells cur.width i :=
            ⟨j, List.mem_cons_self _ _, hj⟩
          simp only [hm, hin, this, hj, and_self, if_true, false_and, if_false]
        · have : ¬ ∃ i ∈ j :: js, (x, y) ∈ job_cells cur.width i := by
            rintro ⟨i, hi, hxy⟩
            rcases List.mem_cons.mp hi with rfl | hi
            · exact hj hxy
            · exact hm ⟨i, hi, hxy⟩
          simp only [hm, hin, this, hj, false_and, if_false]
    · simp [hin]

theorem mem_for_range (lo hi v : Int) : v ∈ for_range lo hi ↔ lo ≤ v ∧ v < hi := by
  unfold for_range
  simp only [List.mem_map, List.mem_range]
  constructor
  · rintro ⟨k, hk, rfl⟩
    omega
  · intro h
    refine ⟨(v - lo).toNat, ?_, ?_⟩ <;> omega

theorem mem_job_rows (j : job) (y : Int) : y ∈ job_rows j ↔ j.start ≤ y ∧ y ≤ j.stop := by
  unfold job_rows
  rw [mem_for_range]
  omega

theorem part_body_tmp (s : part_state) :
    (part_body s).tmp = s.tmp - (if s.tmp ≤ s.step then s.tmp else s.step) := rfl

theorem part_body_step (s : part_state) :
    (part_body s).step = if s.tmp ≤ s.step then s.tmp else s.step := rfl

theorem part_body_start_num (s : part_state) :
    (part_body s).start_num = s.start_num + (if s.tmp ≤ s.step then s.tmp else s.step) := rfl

theorem part_body_job_queue (s : part_state) :
    (part_body s).job_queue = s.job_queue ++
      [{ start := s.start_num,
         stop := s.start_num + (if s.tmp ≤ s.step then s.tmp else s.step) }] := rfl

/-- With `step >= 1` the partition loop ends after at most `tmp` passes, with
`tmp = 0`, and the jobs pushed cover every row from `start_num` on. -/
theorem part_loop_spec (fuel : Nat) : ∀ s : part_state, 0 ≤ s.tmp → 1 ≤ s.step →
    s.tmp.toNat ≤ fuel →
    ∃ p, part_loop fuel s = some p ∧ p.tmp = 0 ∧ p.start_num = s.start_num + s.tmp ∧
      1 ≤ p.step ∧ p.step ≤ s.step ∧
      (∀ j ∈ s.job_queue, j ∈ p.job_queue) ∧
      (∀ y, s.start_num ≤ y → y < s.start_num + s.tmp →
        ∃ j ∈ p.job_queue, j.start ≤ y ∧ y ≤ j.stop) := by
  induction fuel with
  | zero =>
    intro s h0 h1 hf
    have ht : s.tmp = 0 := by omega
    refine ⟨s, ?_, ht, by omega, h1, le_refl _, fun j hj => hj, ?_⟩
    · simp [part_loop, ht]
    · intro y h2 h3; omega
  | succ n ih =>
    intro s h0 h1 hf
    by_cases ht : 0 < s.tmp
    · have hstep : (part_body s).step = if s.tmp ≤ s.step then s.tmp else s.step := rfl
      have hb1 : 1 ≤ (part_body s).step := by rw [hstep]; split_ifs <;> omega
      have hb2 : (part_body s).step ≤ s.step := by rw [hstep]; split_ifs <;> omega
      have hb3 : (part_body s).step ≤ s.tmp := by rw [hstep]; split_ifs <;> omega
      have htmp : (part_body s).tmp = s.tmp - (part_body s).step := rfl
      have hsn : (part_body s).start_num = s.start_num + (part_body s).step := rfl
      have hq : (part_body s).job_queue = s.job_queue ++
          [{ start := s.start_num, stop := s.start_num + (part_body s).step }] := rfl
      obtain ⟨p, hp, hp0, hps, hp1, hp2, hpq, hcov⟩ :=
        ih (part_body s) (by omega) hb1 (by omega)
      refine ⟨p, ?_, hp0, by omega, hp1, by omega, ?_, ?_⟩
      · simp [part_loop, ht, hp]
      · intro j hj
        apply hpq
        rw [hq]
        exact List.mem_append_left _ hj
      · intro y h2 h3
        by_cases hy : y < s.start_num + (part_body s).step
        · refine ⟨{ start := s.start_num, stop := s.start_num + (part_body s).step }, ?_, h2, ?_⟩
          · apply hpq
            rw [hq]
            exact List.mem_append_right _ (List.mem_singleton.mpr rfl)
          · show y ≤ s.start_num + (part_body s).step
            omega
        · exact hcov y (by omega) (by omega)
    · have ht0 : s.tmp = 0 := by omega
      refine ⟨s, ?_, ht0, by omega, h1, le_refl _, fun j hj => hj, ?_⟩
      · simp [part_loop, ht]
      · intro y h2 h3; omega

theorem init_step_pos (height threads : Int) (hh : 1 ≤ height) (ht : 1 ≤ threads) :
    1 ≤ init_step height threads := by
  unfold init_step
  apply Int.le_ediv_of_mul_le (by omega)
  omega

/-! ## The initial step -/

/-- For a positive thread count `init_step` is the ceiling of the exact quotient. -/
theorem init_step_eq_ceil (height number_of_threads : Int) (ht : 1 ≤ number_of_threads) :
    init_step height number_of_threads = ⌈(height : ℚ) / (number_of_threads : ℚ)⌉ := by
  symm
  rw [Int.ceil_eq_iff]
  unfold init_step
  have htpos : (0 : Int) < number_of_threads := by omega
  have hq : (0 : ℚ) < (number_of_threads : ℚ) := by exact_mod_cast htpos
  have h1 := Int.ediv_add_emod (height + number_of_threads - 1) number_of_threads
  have h2 := Int.emod_nonneg (height + number_of_threads - 1) (show number_of_threads ≠ 0 by omega)
  have h3 := Int.emod_lt_of_pos (height + number_of_threads - 1) htpos
  set q := (height + number_of_threads - 1) / number_of_threads with hqdef
  set r := (height + number_of_threads - 1) % number_of_threads with hrdef
  have e1 : (number_of_threads : ℚ) * (q : ℚ) + (r : ℚ) = (height : ℚ) + number_of_threads - 1 := by
    exact_mod_cast h1
  have e2 : (0 : ℚ) ≤ (r : ℚ) := by exact_mod_cast h2
  have e3 : (r : ℚ) ≤ (number_of_threads : ℚ) - 1 := by
    have : r ≤ number_of_threads - 1 := by omega
    exact_mod_cast this
  constructor
  · rw [lt_div_iff₀ hq]
    nlinarith
  · rw [div_le_iff₀ hq]
    nlinarith

/-! ## One generation of `run` is one synchronous step of the grid -/

theorem life_step_width (nb : game_field → Int → Int → Int) (f : game_field) :
    (life_step nb f).width = f.width := rfl

theorem decide_eq_ite (p : Prop) [Decidable p] : decide p = if p then true else false := by
  by_cases h : p <;> simp [h]

/-- The step variable stays at least 1 over a generation, whatever the workers do. -/
theorem generation_step (nb : game_field → Int → Int → Int) (order : List job → List job)
    (fuel : Nat) (height : Int) (st : run_state) (hh : 0 ≤ height) (hs : 1 ≤ st.step)
    (hf : height.toNat ≤ fuel) :
    ∃ st1, generation nb order fuel height st = some st1 ∧ 1 ≤ st1.step ∧
      st1.step ≤ st.step := by
  obtain ⟨p, hp, -, -, hp1, hp2, -, -⟩ :=
    part_loop_spec fuel (part_entry height st.step) hh hs hf
  refine ⟨{ field := workers nb st.field (order p.job_queue) st.field, step := p.step },
    ?_, hp1, hp2⟩
  unfold generation
  simp only [hp]

theorem run_gens_step (nb : game_field → Int → Int → Int)
    (sched : Nat → List job → List job) (fuel : Nat) (height : Int) (st : run_state)
    (hh : 0 ≤ height) (hs : 1 ≤ st.step) (hf : height.toNat ≤ fuel) (n : Nat) :
    ∃ st1, run_gens nb sched fuel height n st = some st1 ∧ 1 ≤ st1.step ∧
      st1.step ≤ st.step := by
  induction n with
  | zero => exact ⟨st, rfl, hs, le_refl _⟩
  | succ n ih =>
    obtain ⟨st1, h1, h2, h3⟩ := ih
    obtain ⟨st2, g1, g2, g3⟩ := generation_step nb (sched n) fuel height st1 hh h2 hf
    refine ⟨st2, ?_, g2, le_trans g3 h3⟩
    simp only [run_gens, h1]
    exact g1

theorem spec_units_zero (start_num step : Int) (hs : 1 ≤ step) :
    spec_units start_num 0 step = [] := by
  unfold spec_units
  have : (0 + step - 1) / step = 0 := Int.ediv_eq_zero_of_lt (by omega) (by omega)
  rw [this]
  rfl

theorem spec_units_pos (start_num tmp step : Int) (hs : 1 ≤ step) (ht : 0 < tmp) :
    spec_units start_num tmp step =
      { start := start_num, stop := start_num + (if tmp ≤ step then tmp else step) } ::
        spec_units (start_num + (if tmp ≤ step then tmp else step))
          (tmp - (if tmp ≤ step then tmp else step)) step := by
  by_cases hle : tmp ≤ step
  · rw [if_pos hle]
    have h0 : tmp - tmp = 0 := by omega
    rw [h0, spec_units_zero _ _ hs]
    unfold spec_units
    have : (tmp + step - 1) / step = 1 := by
      have h1 : tmp + step - 1 = (tmp - 1) + 1 * step := by ring
      rw [h1, Int.add_mul_ediv_right _ _ (by omega), Int.ediv_eq_zero_of_lt (by omega) (by omega)]
      rfl
    rw [this]
    show [({ start := start_num + ((0 : Nat) : Int) * step,
             stop := min (start_num + (((0 : Nat) : Int) + 1) * step) (start_num + tmp) } : job)]
      = _
    have e1 : start_num + ((0 : Nat) : Int) * step = start_num := by simp
    have e2 : min (start_num + (((0 : Nat) : Int) + 1) * step) (start_num + tmp)
        = start_num + tmp := by
      simp only [Nat.cast_zero, zero_add, one_mul]
      omega
    rw [e1, e2]
  · rw [if_neg hle]
    have hlt : step < tmp := by omega
    unfold spec_units
    have hq : (tmp + step - 1) / step = (tmp - step + step - 1) / step + 1 := by
      have h1 : tmp + step - 1 = (tmp - step + step - 1) + 1 * step := by ring
      rw [h1, Int.add_mul_ediv_right _ _ (by omega)]
    have hnn : 0 ≤ (tmp - step + step - 1) / step := Int.ediv_nonneg (by omega) (by omega)
    have hn : ((tmp + step - 1) / step).toNat
        = ((tmp - step + step - 1) / step).toNat + 1 := by
      rw [hq]
      omega
    rw [hn, List.range_succ_eq_map, List.map_cons, List.map_map]
    congr 1
    · have e1 : start_num + ((0 : Nat) : Int) * step = start_num := by simp
      have e2 : min (start_num + (((0 : Nat) : Int) + 1) * step) (start_num + tmp)
          = start_num + step := by
        simp only [Nat.cast_zero, zero_add, one_mul]
        omega
      rw [e1, e2]
    · apply List.map_congr_left
      intro k _
      simp only [Function.comp, Nat.cast_succ, job.mk.injEq]
      constructor
      · ring
      · have a1 : start_num + ((k : Int) + 1 + 1) * step
            = start_num + step + ((k : Int) + 1) * step := by ring
        have a2 : start_num + tmp = start_num + step + (tmp - step) := by ring
        rw [a1, a2]


/-- With `step >= 1` the partition loop pushes the units of the spec for the value
that `step` has on entry. -/
theorem part_loop_units (fuel : Nat) : ∀ s : part_state, 0 ≤ s.tmp → 1 ≤ s.step →
    s.tmp.toNat ≤ fuel →
    ∃ p, part_loop fuel s = some p ∧
      p.job_queue = s.job_queue ++ spec_units s.start_num s.tmp s.step := by
  induction fuel with
  | zero =>
    intro s h0 h1 hf
    have ht : s.tmp = 0 := by omega
    refine ⟨s, ?_, ?_⟩
    · simp [part_loop, ht]
    · rw [ht, spec_units_zero _ _ h1, List.append_nil]
  | succ n ih =>
    intro s h0 h1 hf
    by_cases ht : 0 < s.tmp
    · have hstep : (part_body s).step = if s.tmp ≤ s.step then s.tmp else s.step := rfl
      have hb1 : 1 ≤ (part_body s).step := by rw [hstep]; split_ifs <;> omega
      have hb3 : (part_body s).step ≤ s.tmp := by rw [hstep]; split_ifs <;> omega
      have htmp : (part_body s).tmp = s.tmp - (part_body s).step := rfl
      obtain ⟨p, hp, hq⟩ := ih (part_body s) (by omega) hb1 (by omega)
      refine ⟨p, ?_, ?_⟩
      · simp [part_loop, ht, hp]
      · rw [hq, spec_units_pos _ _ _ h1 ht, part_body_job_queue, part_body_start_num,
          part_body_tmp, part_body_step, List.append_assoc, List.singleton_append]
        by_cases hle : s.tmp ≤ s.step
        · simp only [if_pos hle]
          have h00 : s.tmp - s.tmp = 0 := by omega
          rw [h00, spec_units_zero _ _ h1, spec_units_zero _ _ (by omega)]
        · simp only [if_neg hle]
    · have ht0 : s.tmp = 0 := by omega
      refine ⟨s, ?_, ?_⟩
      · simp [part_loop, ht]
      · rw [ht0, spec_units_zero _ _ h1, List.append_nil]

theorem init_step_mul_ge (height number_of_threads : Int) (ht : 1 ≤ number_of_threads) :
    height ≤ number_of_threads * init_step height number_of_threads := by
  unfold init_step
  have h1 := Int.ediv_add_emod (height + number_of_threads - 1) number_of_threads
  have h3 := Int.emod_lt_of_pos (height + number_of_threads - 1)
    (show 0 < number_of_threads by omega)
  omega

/-- In the first generation `run` creates the units of the spec for
`step = ceil(height / number_of_threads)`, at most `number_of_threads` of them. -/
theorem first_generation_units (nb : game_field → Int → Int → Int)
    (sched : Nat → List job → List job) (fuel : Nat) (input : game_field)
    (number_of_threads : Int) (hh : 1 ≤ input.height) (ht : 1 ≤ number_of_threads)
    (hf : input.height.toNat ≤ fuel) :
    generation_jobs nb sched fuel input number_of_threads 0 =
      some (spec_units 0 input.height (init_step input.height number_of_threads)) ∧
    ((spec_units 0 input.height (init_step input.height number_of_threads)).length : Int)
      ≤ number_of_threads := by
  have hs := init_step_pos _ _ hh ht
  have hm := init_step_mul_ge input.height number_of_threads ht
  constructor
  · obtain ⟨p, hp, hq⟩ := part_loop_units fuel
      (part_entry input.height (init_step input.height number_of_threads))
      (by show 0 ≤ input.height; omega) hs hf
    show Option.map (fun p => p.job_queue)
      (part_loop fuel (part_entry input.height (init_step input.height number_of_threads))) = _
    rw [hp, Option.map_some', hq]
    rfl
  · unfold spec_units
    rw [List.length_map, List.length_range]
    set step := init_step input.height number_of_threads with hstep
    have hlt : (input.height + step - 1) / step < number_of_threads + 1 := by
      apply Int.ediv_lt_of_lt_mul (by omega)
      nlinarith
    have hnn : 0 ≤ (input.height + step - 1) / step := Int.ediv_nonneg (by omega) (by omega)
    omega


theorem spec_units_last (tmp step : Int) (ht : 1 ≤ tmp) (hs : 1 ≤ step) :
    ∃ j ∈ spec_units 0 tmp step, j.start < tmp ∧ j.stop = tmp := by
  unfold spec_units
  have h1 := Int.ediv_add_emod (tmp + step - 1) step
  have h2 := Int.emod_nonneg (tmp + step - 1) (show step ≠ 0 by omega)
  have h3 := Int.emod_lt_of_pos (tmp + step - 1) (show 0 < step by omega)
  have hq : 1 ≤ (tmp + step - 1) / step := Int.le_ediv_of_mul_le (by omega) (by omega)
  set q := (tmp + step - 1) / step with hqdef
  have hk : ((q.toNat - 1 : Nat) : Int) = q - 1 := by omega
  refine ⟨_, List.mem_map.mpr ⟨q.toNat - 1, List.mem_range.mpr (by omega), rfl⟩, ?_, ?_⟩
  · show 0 + ((q.toNat - 1 : Nat) : Int) * step < tmp
    rw [hk]
    nlinarith
  · show min (0 + (((q.toNat - 1 : Nat) : Int) + 1) * step) (0 + tmp) = tmp
    rw [hk]
    have : tmp ≤ (q - 1 + 1) * step := by nlinarith
    omega

/-- In every generation the last unit that `run` creates ends at row `height`, so
the worker visits a row that is not in the grid. -/
theorem every_generation_visits_row_height (nb : game_field → Int → Int → Int)
    (sched : Nat → List job → List job) (fuel : Nat) (input : game_field)
    (number_of_threads : Int) (hh : 1 ≤ input.height) (ht : 1 ≤ number_of_threads)
    (hf : input.height.toNat ≤ fuel) (g : Nat) :
    ∃ js, generation_jobs nb sched fuel input number_of_threads g = some js ∧
      ∃ j ∈ js, input.height ∈ job_rows j := by
  obtain ⟨st, h1, h2, -⟩ := run_gens_step nb sched fuel input.height
    { field := input, step := init_step input.height number_of_threads } (by omega)
    (init_step_pos _ _ hh ht) hf g
  obtain ⟨p, hp, hq⟩ := part_loop_units fuel (part_entry input.height st.step)
    (by show 0 ≤ input.height; omega) h2 hf
  obtain ⟨j, hj, hj1, hj2⟩ := spec_units_last input.height st.step hh h2
  refine ⟨p.job_queue, ?_, j, ?_, ?_⟩
  · unfold generation_jobs
    simp only [h1, hp, Option.map_some']
  · rw [hq]
    exact List.mem_append_right _ hj
  · rw [mem_job_rows]
    omega

/-- C1, at a failing input: with `height = 2` and 2 threads the first generation
creates the units `[0, 1]` and `[1, 2]`; the worker visits row 1 for both and row 2,
which is not a row of the grid. -/
theorem C1_units_overlap_and_leave_the_grid (nb : game_field → Int → Int → Int)
    (sched : Nat → List job → List job) (width : Int) (cells : Int → Int → Bool) :
    (generation_jobs nb sched 2 { width := width, height := 2, cells := cells } 2 0).map
      (fun js => js.map job_rows) = some [[0, 1], [1, 2]] := by
  rfl

/-- C5, at a failing input: on a 1 × 1 grid with 1 thread the only unit of the first
generation is `[0, 1]`, and the worker reads the cells `(0, 0)` and `(0, 1)`; row 1 is
not a row of the grid. -/
theorem C5_worker_reads_row_height (nb : game_field → Int → Int → Int)
    (sched : Nat → List job → List job) (cells : Int → Int → Bool) :
    (generation_jobs nb sched 1 { width := 1, height := 1, cells := cells } 1 0).map
      (fun js => js.flatMap (job_cells 1)) = some [(0, 0), (0, 1)] := by
  rfl

/-- C9, at a failing input: with `height = 5` and 2 threads (`step = 3`) the first
generation creates the units starting at rows 0 and 3, the second generation creates
three units, starting at rows 0, 2 and 4. -/
theorem C9_later_generations_use_the_remainder (nb : game_field → Int → Int → Int)
    (sched : Nat → List job → List job) (width : Int) (cells : Int → Int → Bool) :
    init_step 5 2 = 3 ∧
    generation_jobs nb sched 5 { width := width, height := 5, cells := cells } 2 0 =
      some [⟨0, 3⟩, ⟨3, 5⟩] ∧
    generation_jobs nb sched 5 { width := width, height := 5, cells := cells } 2 1 =
      some [⟨0, 2⟩, ⟨2, 4⟩, ⟨4, 5⟩] := by
  refine ⟨by decide, rfl, rfl⟩

theorem get_of_in_range (f : game_field) (x y : Int) (h : f.in_range x y) :
    f.get x y = f.cells x y := by
  unfold game_field.get
  rw [if_pos h]

theorem next_alive_eq_true (alive : Bool) (n : Int) :
    next_alive alive n = true ↔
      (alive = true ∧ (n = 2 ∨ n = 3)) ∨ (alive = false ∧ n = 3) := by
  unfold next_alive
  cases alive <;> simp

/-- C2: a worker that processes a unit on a fresh copy of the current grid leaves
every cell of the grid it visits alive exactly when the cell was alive with 2 or 3
live neighbours or dead with 3; a dead cell with 3 becomes alive, a live cell with
fewer than 2 or more than 3 becomes dead. -/
theorem C2_unit_applies_the_rule (nb : game_field → Int → Int → Int) (current : game_field)
    (j : job) (x y : Int) (hvisit : (x, y) ∈ job_cells current.width j)
    (hin : current.in_range x y) :
    ((process_job nb current j current).get x y = true ↔
      (current.get x y = true ∧ (nb current x y = 2 ∨ nb current x y = 3)) ∨
        (current.get x y = false ∧ nb current x y = 3)) ∧
    (current.get x y = false → nb current x y = 3 →
      (process_job nb current j current).get x y = true) ∧
    (current.get x y = true → nb current x y < 2 ∨ nb current x y > 3 →
      (process_job nb current j current).get x y = false) := by
  obtain ⟨hw, hh, hc⟩ :=
    process_job_cells nb current j current rfl rfl (fun _ _ => Or.inl rfl)
  have hin1 : (process_job nb current j current).in_range x y :=
    (in_range_congr current _ hw hh x y).mpr hin
  have hval : (process_job nb current j current).get x y =
      next_alive (current.get x y) (nb current x y) := by
    rw [get_of_in_range _ _ _ hin1, get_of_in_range _ _ _ hin, hc, if_pos ⟨hvisit, hin⟩]
  have hiff := next_alive_eq_true (current.get x y) (nb current x y)
  rw [hval]
  refine ⟨hiff, ?_, ?_⟩
  · intro h1 h2
    exact hiff.mpr (Or.inr ⟨h1, h2⟩)
  · intro h1 h2
    cases hn : next_alive (current.get x y) (nb current x y)
    · rfl
    · rcases hiff.mp hn with ⟨-, h3⟩ | ⟨h3, -⟩
      · omega
      · rw [h1] at h3
        exact absurd h3 (by decide)

theorem C2_unit_applies_the_rule_witness :
    ((process_job game_field.neighbors tromino ⟨0, 2⟩ tromino).get 1 1 = true ↔
      (tromino.get 1 1 = true ∧ (tromino.neighbors 1 1 = 2 ∨ tromino.neighbors 1 1 = 3)) ∨
        (tromino.get 1 1 = false ∧ tromino.neighbors 1 1 = 3)) ∧
    (tromino.get 1 1 = false → tromino.neighbors 1 1 = 3 →
      (process_job game_field.neighbors tromino ⟨0, 2⟩ tromino).get 1 1 = true) ∧
    (tromino.get 1 1 = true → tromino.neighbors 1 1 < 2 ∨ tromino.neighbors 1 1 > 3 →
      (process_job game_field.neighbors tromino ⟨0, 2⟩ tromino).get 1 1 = false) :=
  C2_unit_applies_the_rule game_field.neighbors tromino ⟨0, 2⟩ 1 1 (by decide) (by decide)

/-- C7, as stated, fails: in the 2 × 2 grid `tromino` the cell `(1, 1)` is dead and
has 3 live neighbours, the only unit of the generation visits it, and after the
generation it is alive. -/
theorem C7_dead_cell_with_three_neighbours_changes :
    generation_jobs game_field.neighbors fifo 2 tromino 1 0 = some [⟨0, 2⟩] ∧
    (1, 1) ∈ job_cells tromino.width ⟨0, 2⟩ ∧
    tromino.in_range 1 1 ∧ tromino.neighbors 1 1 = 3 ∧ tromino.get 1 1 = false ∧
    (workers game_field.neighbors tromino [⟨0, 2⟩] tromino).get 1 1 = true := by
  decide

/-- C7, amended: a cell of the grid that a worker processes and whose neighbour
count in the current grid is 2, or is 3 with the cell alive, has the same state after
the generation as before. -/
theorem C7_stasis (nb : game_field → Int → Int → Int) (current : game_field)
    (js : List job) (j : job) (x y : Int) (hj : j ∈ js)
    (hvisit : (x, y) ∈ job_cells current.width j) (hin : current.in_range x y)
    (hn : nb current x y = 2 ∨ (nb current x y = 3 ∧ current.get x y = true)) :
    (workers nb current js current).get x y = current.get x y := by
  obtain ⟨hw, hh, hc⟩ := workers_cells nb current js current rfl rfl (fun _ _ => Or.inl rfl)
  have hin1 : (workers nb current js current).in_range x y :=
    (in_range_congr current _ hw hh x y).mpr hin
  have hval : (workers nb current js current).get x y =
      next_alive (current.get x y) (nb current x y) := by
    rw [get_of_in_range _ _ _ hin1, get_of_in_range _ _ _ hin, hc,
      if_pos ⟨⟨j, hj, hvisit⟩, hin⟩]
  rw [hval]
  rcases hn with h | ⟨h, ha⟩
  · rw [h]
    cases current.get x y <;> decide
  · rw [h, ha]
    decide

theorem C7_stasis_witness :
    (workers game_field.neighbors tromino [⟨0, 2⟩] tromino).get 0 0 = tromino.get 0 0 :=
  C7_stasis game_field.neighbors tromino [⟨0, 2⟩] ⟨0, 2⟩ 0 0 (by decide) (by decide)
    (by decide) (Or.inl (by decide))


end GameOfLife
